import Mathlib

/-!
Shallow embedding of `src/minesweeper/minesweeper.py` (classes `Sentence` and
`MinesweeperAI`), and proofs settling the frozen claims about it.

Modelling conventions:
* A board cell is a pair of Python integers, embedded as `ℤ × ℤ`.
* A Python `set` of cells is embedded as `Finset (ℤ × ℤ)`; Python `set`
  equality/membership is `Finset` equality/membership.
* `Sentence.__eq__` compares `cells` and `count`, i.e. structural equality of
  the `Sentence` structure below, and Python `in`/`not in` on the knowledge
  list uses that equality, i.e. `List` membership with `DecidableEq`.
* The `while changed:` loop of `update_knowledge` and the outer
  `for i, sentence1 in enumerate(self.knowledge)` loop (which in Python keeps
  iterating into elements appended during the loop) have no a-priori
  structural bound, so both are embedded with an explicit fuel parameter and
  return `none` when the fuel runs out.  A run of the Python code that
  terminates corresponds to `some` for all sufficiently large fuels; a
  non-terminating run corresponds to `none` for every fuel.
* The per-cell loops `for mine in new_mines: if mine not in self.mines:
  self.mark_mine(mine)` iterate over a Python set in unspecified order; the
  net effect on every sentence is removing the newly marked cells and (for
  mines) decrementing the count once per removed cell, independently of the
  iteration order.  They are embedded as the simultaneous set updates
  `Sentence.markMineSet` / `Sentence.markSafeSet`; the lemmas
  `foldl_mark_mine_eq_markMineSet` and `foldl_mark_safe_eq_markSafeSet` prove
  that folding the source's one-cell mutation over any duplicate-free
  enumeration of the set agrees with the simultaneous update.
* Python `float` arithmetic in `make_random_move` is embedded as exact `ℚ`
  arithmetic.  Every concrete value appearing in the theorems below is a
  small dyadic rational, exactly representable as a float, so the comparisons
  proved are the ones the floating-point code performs.
-/

abbrev Cell := ℤ × ℤ

/-- `class Sentence`: a set of board cells together with a count of how many
of those cells are mines.  `__eq__` compares `cells` and `count`. -/
structure Sentence where
  cells : Finset Cell
  count : ℤ

instance : DecidableEq Sentence := fun a b =>
  decidable_of_iff (a.cells = b.cells ∧ a.count = b.count)
    (by cases a; cases b; simp)

namespace Sentence

/-- `Sentence.known_mines`: all of `cells` if `len(self.cells) == self.count`
and `self.count != 0`, else the empty set. -/
def known_mines (s : Sentence) : Finset Cell :=
  if (s.cells.card : ℤ) = s.count ∧ s.count ≠ 0 then s.cells else ∅

/-- `Sentence.known_safes`: all of `cells` if `self.count == 0`, else the
empty set. -/
def known_safes (s : Sentence) : Finset Cell :=
  if s.count = 0 then s.cells else ∅

/-- `Sentence.mark_mine`: if `cell in self.cells`, decrement `count` and
remove the cell; otherwise do nothing. -/
def mark_mine (s : Sentence) (c : Cell) : Sentence :=
  if c ∈ s.cells then ⟨s.cells.erase c, s.count - 1⟩ else s

/-- `Sentence.mark_safe`: if `cell in self.cells`, remove the cell; `count`
unchanged; otherwise do nothing. -/
def mark_safe (s : Sentence) (c : Cell) : Sentence :=
  if c ∈ s.cells then ⟨s.cells.erase c, s.count⟩ else s

/-- Simultaneous form of iterating `mark_mine` over a set `M` of cells:
remove `M` from `cells` and decrement `count` once for each removed cell.
See `foldl_mark_mine_eq_markMineSet`. -/
def markMineSet (s : Sentence) (M : Finset Cell) : Sentence :=
  ⟨s.cells \ M, s.count - ((s.cells ∩ M).card : ℤ)⟩

/-- Simultaneous form of iterating `mark_safe` over a set `S` of cells.
See `foldl_mark_safe_eq_markSafeSet`. -/
def markSafeSet (s : Sentence) (S : Finset Cell) : Sentence :=
  ⟨s.cells \ S, s.count⟩

end Sentence

/-- `class MinesweeperAI`: board dimensions, the played / known-mine /
known-safe cell sets, and the list of live sentences. -/
structure MinesweeperAI where
  height : ℤ
  width : ℤ
  moves_made : Finset Cell
  mines : Finset Cell
  safes : Finset Cell
  knowledge : List Sentence

instance : DecidableEq MinesweeperAI := fun a b =>
  decidable_of_iff
    (a.height = b.height ∧ a.width = b.width ∧ a.moves_made = b.moves_made ∧
      a.mines = b.mines ∧ a.safes = b.safes ∧ a.knowledge = b.knowledge)
    (by cases a; cases b; simp)

instance (priority := 2000) : DecidableEq (Option MinesweeperAI) := fun a b =>
  match a, b with
  | none, none => isTrue rfl
  | none, some _ => isFalse (fun h => Option.noConfusion h)
  | some _, none => isFalse (fun h => Option.noConfusion h)
  | some x, some y => decidable_of_iff (x = y) (by simp)

namespace MinesweeperAI

/-- `MinesweeperAI.mark_mine`: add the cell to `self.mines` and propagate
`Sentence.mark_mine` to every sentence. -/
def mark_mine (st : MinesweeperAI) (c : Cell) : MinesweeperAI :=
  { st with
    mines := insert c st.mines
    knowledge := st.knowledge.map (fun s => s.mark_mine c) }

/-- `MinesweeperAI.mark_safe`: add the cell to `self.safes` and propagate
`Sentence.mark_safe` to every sentence. -/
def mark_safe (st : MinesweeperAI) (c : Cell) : MinesweeperAI :=
  { st with
    safes := insert c st.safes
    knowledge := st.knowledge.map (fun s => s.mark_safe c) }

end MinesweeperAI

/-- The accumulation of `sentence.known_mines()` over the knowledge list into
the `new_mines` set (`new_mines.update(known_mines)`; updating with an empty
set is a no-op, matching the `if known_mines:` guard). -/
def collect_mines (kn : List Sentence) : Finset Cell :=
  kn.foldl (fun acc s => acc ∪ s.known_mines) ∅

/-- The accumulation of `sentence.known_safes()` over the knowledge list into
the `new_safes` set. -/
def collect_safes (kn : List Sentence) : Finset Cell :=
  kn.foldl (fun acc s => acc ∪ s.known_safes) ∅

/-- The inner loop `for sentence2 in self.knowledge[i + 1:]` of the pairwise
resolution step.  `s1` is `sentence1`, the first list argument is the slice
(a snapshot taken when the inner loop starts), `kn` is the current value of
`self.knowledge` (appends go to its end), `ch` is the changed-flag. -/
def resolveInner (s1 : Sentence) : List Sentence → List Sentence → Bool → List Sentence × Bool
  | [], kn, ch => (kn, ch)
  | s2 :: rest, kn, ch =>
    if s1 = s2 then resolveInner s1 rest kn ch
    else if s2.cells ⊆ s1.cells ∧ s2.cells ≠ ∅ then
      if 0 ≤ s1.count - s2.count ∧ (⟨s1.cells \ s2.cells, s1.count - s2.count⟩ : Sentence) ∉ kn
      then resolveInner s1 rest (kn ++ [⟨s1.cells \ s2.cells, s1.count - s2.count⟩]) true
      else resolveInner s1 rest kn ch
    else resolveInner s1 rest kn ch

/-- The outer loop `for i, sentence1 in enumerate(self.knowledge)` of the
pairwise resolution step.  In Python this loop walks by index over a list
that may grow while it runs, so elements appended by `resolveInner` are
visited too; the recursion is fuelled because the list growth has no
structural bound. -/
def resolveOuter : ℕ → List Sentence → ℕ → Bool → Option (List Sentence × Bool)
  | 0, _, _, _ => none
  | f + 1, kn, i, ch =>
    if h : i < kn.length then
      resolveOuter f (resolveInner (kn.get ⟨i, h⟩) (kn.drop (i + 1)) kn ch).1 (i + 1)
        (resolveInner (kn.get ⟨i, h⟩) (kn.drop (i + 1)) kn ch).2
    else some (kn, ch)

/-- One iteration of the `while changed:` body of
`MinesweeperAI.update_knowledge`: collect known mines and safes, mark the new
ones (each `self.mark_mine(mine)` guarded by `mine not in self.mines`, then
each `self.mark_safe(safe)` guarded by `safe not in self.safes`), drop
sentences whose cell set became empty, then run pairwise resolution.  Returns
the new state and the changed-flag, or `none` if the resolution fuel ran
out. -/
def updPass (rFuel : ℕ) (st : MinesweeperAI) : Option (MinesweeperAI × Bool) :=
  let new_mines := collect_mines st.knowledge
  let new_safes := collect_safes st.knowledge
  let M := new_mines \ st.mines
  let ch1 : Bool := decide (M ≠ ∅)
  let kn1 := st.knowledge.map (fun s => s.markMineSet M)
  let S := new_safes \ st.safes
  let ch2 : Bool := ch1 || decide (S ≠ ∅)
  let kn2 := kn1.map (fun s => s.markSafeSet S)
  let kn3 := kn2.filter (fun s => s.cells ≠ ∅)
  match resolveOuter rFuel kn3 0 ch2 with
  | none => none
  | some (kn4, ch) =>
    some ({ st with
            mines := st.mines ∪ new_mines
            safes := st.safes ∪ new_safes
            knowledge := kn4 }, ch)

/-- `MinesweeperAI.update_knowledge`: run `updPass` until a full pass reports
no change.  `wFuel` bounds the number of passes; `rFuel` is handed to the
resolution loop of each pass. -/
def update_knowledge : ℕ → ℕ → MinesweeperAI → Option MinesweeperAI
  | 0, _, _ => none
  | w + 1, rFuel, st =>
    match updPass rFuel st with
    | none => none
    | some (st', ch) => if ch then update_knowledge w rFuel st' else some st'

/-- The nine positions scanned by the nested
`for i in range(cell[0] - 1, cell[0] + 2): for j in range(...)` loops of
`add_knowledge`, in loop order (the centre cell included; it is skipped by
the `(i, j) == cell` test inside the scan). -/
def cells9 (c : Cell) : List Cell :=
  [(c.1 - 1, c.2 - 1), (c.1 - 1, c.2), (c.1 - 1, c.2 + 1),
   (c.1, c.2 - 1), (c.1, c.2), (c.1, c.2 + 1),
   (c.1 + 1, c.2 - 1), (c.1 + 1, c.2), (c.1 + 1, c.2 + 1)]

/-- The neighbour scan of `add_knowledge`: accumulates the `neighbors` set,
the working `count` (decremented for each neighbour already in `self.mines`
and not in `self.safes`), and `known_mines_count` (structurally present in
the source but unreachable, since the mines test already `continue`d). -/
def neighborScan (st : MinesweeperAI) (cell : Cell) (count : ℤ) :
    Finset Cell × ℤ × ℤ :=
  (cells9 cell).foldl
    (fun acc p =>
      if p = cell then acc
      else if p ∈ st.safes then acc
      else if p ∈ st.mines then (acc.1, acc.2.1 - 1, acc.2.2)
      else if 0 ≤ p.1 ∧ p.1 < st.height ∧ 0 ≤ p.2 ∧ p.2 < st.width then
        (if p ∈ st.mines then (acc.1, acc.2.1, acc.2.2 + 1)
         else (insert p acc.1, acc.2.1, acc.2.2))
      else acc)
    (∅, count, 0)

/-- Steps 1–4 of `MinesweeperAI.add_knowledge` (everything before the call to
`update_knowledge`): record the move, mark the cell safe, scan the
neighbourhood, and append the new sentence when the candidate set is
non-empty. -/
def ingest (st : MinesweeperAI) (cell : Cell) (count : ℤ) : MinesweeperAI :=
  let st2 := MinesweeperAI.mark_safe { st with moves_made := insert cell st.moves_made } cell
  let ns := neighborScan st2 cell count
  if ns.1 ≠ ∅ then
    { st2 with knowledge := st2.knowledge ++ [⟨ns.1, ns.2.1 - ns.2.2⟩] }
  else st2

/-- `MinesweeperAI.add_knowledge`: ingest the observation, then saturate. -/
def add_knowledge (wFuel rFuel : ℕ) (st : MinesweeperAI) (cell : Cell) (count : ℤ) :
    Option MinesweeperAI :=
  update_knowledge wFuel rFuel (ingest st cell count)

/-- `spaces_left` in `make_random_move`:
`(self.height * self.width) - (len(self.mines) + len(self.moves_made))`. -/
def spacesLeft (st : MinesweeperAI) : ℤ :=
  st.height * st.width - ((st.mines.card : ℤ) + (st.moves_made.card : ℤ))

/-- `basic_prob` in `make_random_move`: `nums_mines_left / spaces_left` with
the hardcoded `MINES = 8` as the total-mine figure. -/
def basic_prob (st : MinesweeperAI) : ℚ :=
  ((8 : ℚ) - (st.mines.card : ℚ)) / (spacesLeft st : ℚ)

/-- The board cells in the scan order of the
`for i in range(self.height): for j in range(self.width)` loops. -/
def boardCells (st : MinesweeperAI) : List Cell :=
  (List.range st.height.toNat).flatMap
    (fun (i : ℕ) => (List.range st.width.toNat).map (fun (j : ℕ) => ((↑i : ℤ), (↑j : ℤ))))

/-- The `moves` dict built by `make_random_move` after the baseline
assignment loop: every in-bounds cell not in `self.mines` and not in
`self.moves_made` is a key, mapped to `basic_prob`. -/
def movesList (st : MinesweeperAI) : List (Cell × ℚ) :=
  (boardCells st).filterMap
    (fun c => if c ∉ st.mines ∧ c ∉ st.moves_made then some (c, basic_prob st) else none)

/-- The candidate set of `make_random_move` as a set: all board cells not in
`mines` and not in `moves_made` (the key set of the `moves` dict). -/
def candidates (st : MinesweeperAI) : Finset Cell :=
  ((Finset.Icc (0 : ℤ) (st.height - 1)) ×ˢ (Finset.Icc (0 : ℤ) (st.width - 1))).filter
    (fun c => c ∉ st.mines ∧ c ∉ st.moves_made)

/-- A candidate's probability estimate after the sentence-refinement loop of
`make_random_move`: starting from `basic_prob`, every sentence with a
non-empty cell set containing the candidate raises the estimate to
`max(current, count / len(cells))`. -/
def finalProb (st : MinesweeperAI) (c : Cell) : ℚ :=
  st.knowledge.foldl
    (fun v s =>
      if s.cells.card ≠ 0 ∧ c ∈ s.cells then max v ((s.count : ℚ) / (s.cells.card : ℚ))
      else v)
    (basic_prob st)

/-- `min(moves.values())` and the `best_moves` list of `make_random_move`
(the keys attaining the minimal estimate, in dict order).  The minimum of a
list of values is folded from its head; the guard `if not moves` in
`make_random_move` ensures this is only reached on a non-empty dict. -/
def bestMoves (st : MinesweeperAI) : List Cell :=
  let keys := (movesList st).map Prod.fst
  let vals := keys.map (finalProb st)
  let mn := vals.foldl min (vals.headD 0)
  keys.filter (fun c => finalProb st c = mn)

/-- `MinesweeperAI.make_random_move`, up to the final uniformly random
`random.choice`: `none` on the two early returns, otherwise `some` of the
list of cells the random choice draws from (`moves.keys()` when there are no
sentences, else `best_moves`). -/
def make_random_move (st : MinesweeperAI) : Option (List Cell) :=
  if spacesLeft st = 0 then none
  else if movesList st = [] then none
  else if st.knowledge = [] then some ((movesList st).map Prod.fst)
  else some (bestMoves st)

/-- Modelled from the spec (§4.4 step 3), for comparison with the code's
`basic_prob`: the baseline mine probability
`(totalMines − |mined|) / |candidates|`, with `totalMines` supplied by the
caller. -/
def specBaseline (totalMines : ℤ) (st : MinesweeperAI) : ℚ :=
  ((totalMines : ℚ) - (st.mines.card : ℚ)) / ((candidates st).card : ℚ)

/-! ### Concrete states used by the claims -/

/-- Scenario knowledge base for resolution, superset sentence first:
`A = {(0,0),(0,1),(0,2)} = 1` before `B = {(0,0),(0,1)} = 1`. -/
def stAB : MinesweeperAI :=
  ⟨3, 3, ∅, ∅, ∅, [⟨{(0, 0), (0, 1), (0, 2)}, 1⟩, ⟨{(0, 0), (0, 1)}, 1⟩]⟩

/-- The same two sentences with the subset sentence `B` first. -/
def stBA : MinesweeperAI :=
  ⟨3, 3, ∅, ∅, ∅, [⟨{(0, 0), (0, 1)}, 1⟩, ⟨{(0, 0), (0, 1), (0, 2)}, 1⟩]⟩

/-- Result of saturating `stAB`. -/
def stABf : MinesweeperAI :=
  ⟨3, 3, ∅, ∅, {(0, 2)}, [⟨{(0, 0), (0, 1)}, 1⟩, ⟨{(0, 0), (0, 1)}, 1⟩]⟩

/-- A fresh AI on a 1×2 board. -/
def ai12 : MinesweeperAI := ⟨1, 2, ∅, ∅, ∅, []⟩

/-- `ai12` after `add_knowledge((0,0), 3)`. -/
def st_after1 : MinesweeperAI := ⟨1, 2, {(0, 0)}, ∅, {(0, 0)}, [⟨{(0, 1)}, 3⟩]⟩

/-- `st_after1` after ingesting the contradictory observation `((0,0), 2)`,
at the entry of the saturation loop that never terminates. -/
def st_div : MinesweeperAI :=
  ⟨1, 2, {(0, 0)}, ∅, {(0, 0)}, [⟨{(0, 1)}, 3⟩, ⟨{(0, 1)}, 2⟩]⟩

/-- `st_div` after one saturation pass: the empty-cells sentence `∅ = 1` has
been derived and appended; every later pass drops it and re-derives it. -/
def st1_div : MinesweeperAI :=
  ⟨1, 2, {(0, 0)}, ∅, {(0, 0)}, [⟨{(0, 1)}, 3⟩, ⟨{(0, 1)}, 2⟩, ⟨∅, 1⟩]⟩

/-- The knowledge list of `st_div` (also the post-drop list of `st1_div`). -/
def knD : List Sentence := [⟨{(0, 1)}, 3⟩, ⟨{(0, 1)}, 2⟩]

/-- The knowledge list of `st1_div`. -/
def knDe : List Sentence := [⟨{(0, 1)}, 3⟩, ⟨{(0, 1)}, 2⟩, ⟨∅, 1⟩]

/-- A state whose knowledge holds a sentence `{(0,0)} = 0`. -/
def stX : MinesweeperAI := ⟨2, 2, ∅, ∅, ∅, [⟨{(0, 0)}, 0⟩]⟩

/-- A 1×4 board with `(0,0)` already known mined. -/
def stC : MinesweeperAI := ⟨1, 4, ∅, {(0, 0)}, ∅, []⟩

/-- A fresh AI on a 2×2 board. -/
def ai22 : MinesweeperAI := ⟨2, 2, ∅, ∅, ∅, []⟩

/-- `ai22` after `add_knowledge((1,0), 1)`. -/
def stm1 : MinesweeperAI :=
  ⟨2, 2, {(1, 0)}, ∅, {(1, 0)}, [⟨{(0, 0), (0, 1), (1, 1)}, 1⟩]⟩

/-- `stm1` after `add_knowledge((0,0), 1)`. -/
def stm2 : MinesweeperAI :=
  ⟨2, 2, {(1, 0), (0, 0)}, ∅, {(1, 0), (0, 0)},
   [⟨{(0, 1), (1, 1)}, 1⟩, ⟨{(0, 1), (1, 1)}, 1⟩]⟩

/-- `stm2` after the contradictory `add_knowledge((0,1), 0)`: the cell
`(1,1)` is deduced mined and safe in the same pass and lands in both sets. -/
def stF : MinesweeperAI :=
  ⟨2, 2, {(1, 0), (0, 0), (0, 1)}, {(1, 1)}, {(1, 0), (0, 0), (0, 1), (1, 1)}, []⟩

/-- A 1×3 board where `(0,0)` is both in `mines` and in `moves_made`, so
`spaces_left = 1` while there are two candidate cells. -/
def stP : MinesweeperAI := ⟨1, 3, {(0, 0)}, {(0, 0)}, ∅, []⟩

/-- A 1×2 board where `(0,0)` is both in `mines` and in `moves_made`, so
`spaces_left = 0` while `(0,1)` is still a candidate. -/
def st8 : MinesweeperAI := ⟨1, 2, {(0, 0)}, {(0, 0)}, ∅, []⟩

/-- `stC` after `add_knowledge((0,1), 0)`: the negative-count sentence
`{(0,2)} = −1` has been stored. -/
def stCf : MinesweeperAI := ⟨1, 4, {(0, 1)}, {(0, 0)}, {(0, 1)}, [⟨{(0, 2)}, -1⟩]⟩

/-! ### Equation lemmas for the fuelled recursions -/

theorem resolveOuter_succ (f : ℕ) (kn : List Sentence) (i : ℕ) (ch : Bool) :
    resolveOuter (f + 1) kn i ch =
      if h : i < kn.length then
        resolveOuter f (resolveInner (kn.get ⟨i, h⟩) (kn.drop (i + 1)) kn ch).1 (i + 1)
          (resolveInner (kn.get ⟨i, h⟩) (kn.drop (i + 1)) kn ch).2
      else some (kn, ch) := rfl

theorem update_knowledge_succ (w rFuel : ℕ) (st : MinesweeperAI) :
    update_knowledge (w + 1) rFuel st =
      match updPass rFuel st with
      | none => none
      | some (st', ch) => if ch then update_knowledge w rFuel st' else some st' := rfl


/-! ### Relating the per-cell marking loops to the simultaneous set form -/

theorem markMineSet_empty (s : Sentence) : s.markMineSet ∅ = s := by
  cases s with
  | mk cells count => simp [Sentence.markMineSet]

theorem markSafeSet_empty (s : Sentence) : s.markSafeSet ∅ = s := by
  cases s with
  | mk cells count => simp [Sentence.markSafeSet]

theorem mark_mine_markMineSet (s : Sentence) (c : Cell) (T : Finset Cell) (hc : c ∉ T) :
    (s.mark_mine c).markMineSet T = s.markMineSet (insert c T) := by
  by_cases hcs : c ∈ s.cells
  · have hcells : (s.cells.erase c) \ T = s.cells \ insert c T := by
      ext x
      simp only [Finset.mem_sdiff, Finset.mem_erase, Finset.mem_insert]
      tauto
    have hinter : (s.cells.erase c) ∩ T = s.cells ∩ T := by
      ext x
      simp only [Finset.mem_inter, Finset.mem_erase]
      constructor
      · rintro ⟨⟨_, h1⟩, h2⟩
        exact ⟨h1, h2⟩
      · rintro ⟨h1, h2⟩
        exact ⟨⟨fun he => hc (he ▸ h2), h1⟩, h2⟩
    have hins : s.cells ∩ insert c T = insert c (s.cells ∩ T) := by
      ext x
      simp only [Finset.mem_inter, Finset.mem_insert]
      constructor
      · rintro ⟨h1, h2 | h2⟩
        · exact Or.inl h2
        · exact Or.inr ⟨h1, h2⟩
      · rintro (rfl | ⟨h1, h2⟩)
        · exact ⟨hcs, Or.inl rfl⟩
        · exact ⟨h1, Or.inr h2⟩
    have hnotmem : c ∉ s.cells ∩ T := by
      simp only [Finset.mem_inter]
      tauto
    simp only [Sentence.mark_mine, hcs, if_pos, Sentence.markMineSet, hcells, hinter, hins,
      Finset.card_insert_of_not_mem hnotmem, Sentence.mk.injEq, true_and]
    push_cast
    ring
  · have hcells : s.cells \ T = s.cells \ insert c T := by
      ext x
      simp only [Finset.mem_sdiff, Finset.mem_insert]
      constructor
      · rintro ⟨h1, h2⟩
        exact ⟨h1, fun h => h.elim (fun he => hcs (he ▸ h1)) h2⟩
      · rintro ⟨h1, h2⟩
        exact ⟨h1, fun h => h2 (Or.inr h)⟩
    have hinter : s.cells ∩ T = s.cells ∩ insert c T := by
      ext x
      simp only [Finset.mem_inter, Finset.mem_insert]
      constructor
      · rintro ⟨h1, h2⟩
        exact ⟨h1, Or.inr h2⟩
      · rintro ⟨h1, rfl | h2⟩
        · exact absurd h1 hcs
        · exact ⟨h1, h2⟩
    simp only [Sentence.mark_mine, if_neg hcs, Sentence.markMineSet, Sentence.mk.injEq]
    exact ⟨hcells, by rw [hinter]⟩

theorem mark_safe_markSafeSet (s : Sentence) (c : Cell) (T : Finset Cell) (_hc : c ∉ T) :
    (s.mark_safe c).markSafeSet T = s.markSafeSet (insert c T) := by
  by_cases hcs : c ∈ s.cells
  · have hcells : (s.cells.erase c) \ T = s.cells \ insert c T := by
      ext x
      simp only [Finset.mem_sdiff, Finset.mem_erase, Finset.mem_insert]
      tauto
    simp [Sentence.mark_safe, hcs, Sentence.markSafeSet, hcells]
  · have hcells : s.cells \ T = s.cells \ insert c T := by
      ext x
      simp only [Finset.mem_sdiff, Finset.mem_insert]
      constructor
      · rintro ⟨h1, h2⟩
        exact ⟨h1, fun h => h.elim (fun he => hcs (he ▸ h1)) h2⟩
      · rintro ⟨h1, h2⟩
        exact ⟨h1, fun h => h2 (Or.inr h)⟩
    simp [Sentence.mark_safe, hcs, Sentence.markSafeSet, hcells]

/-- Folding the source's one-cell `mark_mine` over any duplicate-free
enumeration of a cell set equals the simultaneous `markMineSet`. -/
theorem foldl_mark_mine_eq_markMineSet (l : List Cell) (hl : l.Nodup) (s : Sentence) :
    l.foldl Sentence.mark_mine s = s.markMineSet l.toFinset := by
  induction l generalizing s with
  | nil => simp [markMineSet_empty]
  | cons c t ih =>
    have hct : c ∉ t.toFinset := by
      simp only [List.mem_toFinset]
      exact (List.nodup_cons.mp hl).1
    simp only [List.foldl_cons, List.toFinset_cons]
    rw [ih (List.nodup_cons.mp hl).2, mark_mine_markMineSet s c t.toFinset hct]

/-- Folding the source's one-cell `mark_safe` over any duplicate-free
enumeration of a cell set equals the simultaneous `markSafeSet`. -/
theorem foldl_mark_safe_eq_markSafeSet (l : List Cell) (hl : l.Nodup) (s : Sentence) :
    l.foldl Sentence.mark_safe s = s.markSafeSet l.toFinset := by
  induction l generalizing s with
  | nil => simp [markSafeSet_empty]
  | cons c t ih =>
    have hct : c ∉ t.toFinset := by
      simp only [List.mem_toFinset]
      exact (List.nodup_cons.mp hl).1
    simp only [List.foldl_cons, List.toFinset_cons]
    rw [ih (List.nodup_cons.mp hl).2, mark_safe_markSafeSet s c t.toFinset hct]

/-- Folding the AI-level `mark_mine` (as the `for mine in new_mines` loop
does) over any duplicate-free enumeration of a cell set is the simultaneous
update used in `updPass`. -/
theorem foldl_ai_mark_mine (l : List Cell) (hl : l.Nodup) (st : MinesweeperAI) :
    l.foldl MinesweeperAI.mark_mine st =
      { st with
        mines := st.mines ∪ l.toFinset
        knowledge := st.knowledge.map (fun s => s.markMineSet l.toFinset) } := by
  induction l generalizing st with
  | nil =>
    cases st with
    | mk h w mm mi sa kn => simp [markMineSet_empty]
  | cons c t ih =>
    have hct : c ∉ t.toFinset := by
      simp only [List.mem_toFinset]
      exact (List.nodup_cons.mp hl).1
    simp only [List.foldl_cons, List.toFinset_cons]
    rw [ih (List.nodup_cons.mp hl).2]
    simp only [MinesweeperAI.mark_mine, List.map_map]
    congr 1
    · rw [Finset.union_insert, Finset.insert_union]
    · exact List.map_congr_left (fun s _ => mark_mine_markMineSet s c t.toFinset hct)

/-- Folding the AI-level `mark_safe` over any duplicate-free enumeration of a
cell set is the simultaneous update used in `updPass`. -/
theorem foldl_ai_mark_safe (l : List Cell) (hl : l.Nodup) (st : MinesweeperAI) :
    l.foldl MinesweeperAI.mark_safe st =
      { st with
        safes := st.safes ∪ l.toFinset
        knowledge := st.knowledge.map (fun s => s.markSafeSet l.toFinset) } := by
  induction l generalizing st with
  | nil =>
    cases st with
    | mk h w mm mi sa kn => simp [markSafeSet_empty]
  | cons c t ih =>
    have hct : c ∉ t.toFinset := by
      simp only [List.mem_toFinset]
      exact (List.nodup_cons.mp hl).1
    simp only [List.foldl_cons, List.toFinset_cons]
    rw [ih (List.nodup_cons.mp hl).2]
    simp only [MinesweeperAI.mark_safe, List.map_map]
    congr 1
    · rw [Finset.union_insert, Finset.insert_union]
    · exact List.map_congr_left (fun s _ => mark_safe_markSafeSet s c t.toFinset hct)

/-! ### Structural lemmas about the resolution loops -/

theorem resolveInner_ext (s1 : Sentence) :
    ∀ (pending kn : List Sentence) (ch : Bool),
      ∃ ext, (resolveInner s1 pending kn ch).1 = kn ++ ext := by
  intro pending
  induction pending with
  | nil => intro kn ch; exact ⟨[], (List.append_nil kn).symm⟩
  | cons s2 rest ih =>
    intro kn ch
    by_cases h1 : s1 = s2
    · simp only [resolveInner, if_pos h1]
      exact ih kn ch
    · by_cases h2 : s2.cells ⊆ s1.cells ∧ s2.cells ≠ ∅
      · by_cases h3 : 0 ≤ s1.count - s2.count ∧
            (⟨s1.cells \ s2.cells, s1.count - s2.count⟩ : Sentence) ∉ kn
        · simp only [resolveInner, if_neg h1, if_pos h2, if_pos h3]
          obtain ⟨ext, hext⟩ :=
            ih (kn ++ [⟨s1.cells \ s2.cells, s1.count - s2.count⟩]) true
          refine ⟨⟨s1.cells \ s2.cells, s1.count - s2.count⟩ :: ext, ?_⟩
          rw [hext, List.append_assoc]
          rfl
        · simp only [resolveInner, if_neg h1, if_pos h2, if_neg h3]
          exact ih kn ch
      · simp only [resolveInner, if_neg h1, if_neg h2]
        exact ih kn ch

theorem resolveInner_mem (s1 : Sentence) (pending kn : List Sentence) (ch : Bool)
    (x : Sentence) (hx : x ∈ kn) : x ∈ (resolveInner s1 pending kn ch).1 := by
  obtain ⟨ext, hext⟩ := resolveInner_ext s1 pending kn ch
  rw [hext]
  exact List.mem_append_left ext hx

theorem resolveInner_false (s1 : Sentence) :
    ∀ (pending kn : List Sentence) (ch : Bool),
      (resolveInner s1 pending kn ch).2 = false →
      (resolveInner s1 pending kn ch).1 = kn ∧ ch = false := by
  intro pending
  induction pending with
  | nil => intro kn ch h; exact ⟨rfl, h⟩
  | cons s2 rest ih =>
    intro kn ch h
    by_cases h1 : s1 = s2
    · simp only [resolveInner, if_pos h1] at h ⊢
      exact ih kn ch h
    · by_cases h2 : s2.cells ⊆ s1.cells ∧ s2.cells ≠ ∅
      · by_cases h3 : 0 ≤ s1.count - s2.count ∧
            (⟨s1.cells \ s2.cells, s1.count - s2.count⟩ : Sentence) ∉ kn
        · exfalso
          simp only [resolveInner, if_neg h1, if_pos h2, if_pos h3] at h
          exact absurd (ih _ true h).2 (by simp)
        · simp only [resolveInner, if_neg h1, if_pos h2, if_neg h3] at h ⊢
          exact ih kn ch h
      · simp only [resolveInner, if_neg h1, if_neg h2] at h ⊢
        exact ih kn ch h

/-- If `s2` occurs in the pending slice, is distinct from `s1`, has a
non-empty cell set included in `s1`'s, and the count difference is
non-negative, then after the inner loop the derived sentence
`(s1.cells − s2.cells, s1.count − s2.count)` is in the knowledge list
(either it was already there, or the loop appended it). -/
theorem resolveInner_derives (s1 s2 : Sentence) :
    ∀ (pending kn : List Sentence) (ch : Bool),
      s2 ∈ pending → s1 ≠ s2 → s2.cells ⊆ s1.cells → s2.cells ≠ ∅ →
      0 ≤ s1.count - s2.count →
      (⟨s1.cells \ s2.cells, s1.count - s2.count⟩ : Sentence) ∈
        (resolveInner s1 pending kn ch).1 := by
  intro pending
  induction pending with
  | nil => intro kn ch hmem; cases hmem
  | cons p rest ih =>
    intro kn ch hmem hne hsub hnonempty hcount
    rcases List.mem_cons.mp hmem with hp | hrest
    · subst hp
      have h1 : ¬ s1 = s2 := hne
      have h2 : s2.cells ⊆ s1.cells ∧ s2.cells ≠ ∅ := ⟨hsub, hnonempty⟩
      by_cases h3 : 0 ≤ s1.count - s2.count ∧
          (⟨s1.cells \ s2.cells, s1.count - s2.count⟩ : Sentence) ∉ kn
      · simp only [resolveInner, if_neg h1, if_pos h2, if_pos h3]
        exact resolveInner_mem s1 rest _ true _
          (List.mem_append_right kn (List.mem_singleton.mpr rfl))
      · have hin : (⟨s1.cells \ s2.cells, s1.count - s2.count⟩ : Sentence) ∈ kn := by
          by_contra hnotin
          exact h3 ⟨hcount, hnotin⟩
        simp only [resolveInner, if_neg h1, if_pos h2, if_neg h3]
        exact resolveInner_mem s1 rest kn ch _ hin
    · by_cases h1 : s1 = p
      · simp only [resolveInner, if_pos h1]
        exact ih kn ch hrest hne hsub hnonempty hcount
      · by_cases h2 : p.cells ⊆ s1.cells ∧ p.cells ≠ ∅
        · by_cases h3 : 0 ≤ s1.count - p.count ∧
              (⟨s1.cells \ p.cells, s1.count - p.count⟩ : Sentence) ∉ kn
          · simp only [resolveInner, if_neg h1, if_pos h2, if_pos h3]
            exact ih _ true hrest hne hsub hnonempty hcount
          · simp only [resolveInner, if_neg h1, if_pos h2, if_neg h3]
            exact ih kn ch hrest hne hsub hnonempty hcount
        · simp only [resolveInner, if_neg h1, if_neg h2]
          exact ih kn ch hrest hne hsub hnonempty hcount

theorem resolveOuter_ext :
    ∀ (f : ℕ) (kn : List Sentence) (i : ℕ) (ch : Bool) (kn' : List Sentence) (ch' : Bool),
      resolveOuter f kn i ch = some (kn', ch') → ∃ ext, kn' = kn ++ ext := by
  intro f
  induction f with
  | zero => intro kn i ch kn' ch' h; cases h
  | succ f ih =>
    intro kn i ch kn' ch' h
    rw [resolveOuter_succ] at h
    by_cases hlen : i < kn.length
    · rw [dif_pos hlen] at h
      obtain ⟨ext2, hext2⟩ := ih _ _ _ _ _ h
      obtain ⟨ext1, hext1⟩ := resolveInner_ext (kn.get ⟨i, hlen⟩) (kn.drop (i + 1)) kn ch
      exact ⟨ext1 ++ ext2, by rw [hext2, hext1, List.append_assoc]⟩
    · rw [dif_neg hlen] at h
      obtain ⟨h1, h2⟩ := Prod.mk.injEq .. ▸ Option.some.inj h
      exact ⟨[], by rw [← h1, List.append_nil]⟩

theorem resolveOuter_false :
    ∀ (f : ℕ) (kn : List Sentence) (i : ℕ) (ch : Bool) (kn' : List Sentence),
      resolveOuter f kn i ch = some (kn', false) → kn' = kn ∧ ch = false := by
  intro f
  induction f with
  | zero => intro kn i ch kn' h; cases h
  | succ f ih =>
    intro kn i ch kn' h
    rw [resolveOuter_succ] at h
    by_cases hlen : i < kn.length
    · rw [dif_pos hlen] at h
      obtain ⟨hkn, hch⟩ := ih _ _ _ _ h
      obtain ⟨hkn2, hch2⟩ := resolveInner_false _ _ _ _ hch
      exact ⟨hkn.trans hkn2, hch2⟩
    · rw [dif_neg hlen] at h
      have := Option.some.inj h
      exact ⟨(congrArg Prod.fst this).symm, (congrArg Prod.snd this)⟩

theorem get_mem_drop {α : Type _} :
    ∀ (l : List α) (n j : ℕ) (h : j < l.length), n ≤ j → l.get ⟨j, h⟩ ∈ l.drop n := by
  intro l
  induction l with
  | nil => intro n j h _; exact absurd h (by simp)
  | cons a t ih =>
    intro n j h hnj
    cases n with
    | zero => exact List.get_mem _ _ _
    | succ m =>
      cases j with
      | zero => exact absurd hnj (by omega)
      | succ k =>
        have hk : k < t.length := by simpa using h
        exact ih m k hk (by omega)

theorem get_append_left {α : Type _} (l ext : List α) (j : ℕ) (h : j < l.length)
    (h2 : j < (l ++ ext).length) : (l ++ ext).get ⟨j, h2⟩ = l.get ⟨j, h⟩ := by
  simp [List.getElem_append, h]

/-- For any completed run of the outer resolution loop started at index `i`:
if positions `jA < jB` of the initial list (with `i ≤ jA`) hold distinct
sentences such that the later one's cells are a non-empty subset of the
earlier one's and the count difference is non-negative, then the derived
difference sentence is in the final list. -/
theorem resolveOuter_derives :
    ∀ (f : ℕ) (kn : List Sentence) (i : ℕ) (ch : Bool) (kn' : List Sentence) (ch' : Bool),
      resolveOuter f kn i ch = some (kn', ch') →
      ∀ (jA jB : ℕ) (hA : jA < kn.length) (hB : jB < kn.length),
        i ≤ jA → jA < jB →
        kn.get ⟨jA, hA⟩ ≠ kn.get ⟨jB, hB⟩ →
        (kn.get ⟨jB, hB⟩).cells ⊆ (kn.get ⟨jA, hA⟩).cells →
        (kn.get ⟨jB, hB⟩).cells ≠ ∅ →
        0 ≤ (kn.get ⟨jA, hA⟩).count - (kn.get ⟨jB, hB⟩).count →
        (⟨(kn.get ⟨jA, hA⟩).cells \ (kn.get ⟨jB, hB⟩).cells,
           (kn.get ⟨jA, hA⟩).count - (kn.get ⟨jB, hB⟩).count⟩ : Sentence) ∈ kn' := by
  intro f
  induction f with
  | zero => intro kn i ch kn' ch' h; cases h
  | succ f ih =>
    intro kn i ch kn' ch' h jA jB hA hB hiA hAB hne hsub hnonempty hcount
    have hlen : i < kn.length := by omega
    rw [resolveOuter_succ, dif_pos hlen] at h
    rcases eq_or_lt_of_le hiA with hEq | hlt
    · subst hEq
      have hmem2 : kn.get ⟨jB, hB⟩ ∈ kn.drop (i + 1) := get_mem_drop kn (i + 1) jB hB (by omega)
      have hinner :
          (⟨(kn.get ⟨i, hA⟩).cells \ (kn.get ⟨jB, hB⟩).cells,
             (kn.get ⟨i, hA⟩).count - (kn.get ⟨jB, hB⟩).count⟩ : Sentence) ∈
            (resolveInner (kn.get ⟨i, hlen⟩) (kn.drop (i + 1)) kn ch).1 :=
        resolveInner_derives (kn.get ⟨i, hA⟩) (kn.get ⟨jB, hB⟩) (kn.drop (i + 1)) kn ch
          hmem2 hne hsub hnonempty hcount
      obtain ⟨ext2, hext2⟩ := resolveOuter_ext f _ _ _ _ _ h
      rw [hext2]
      exact List.mem_append_left ext2 hinner
    · obtain ⟨ext, hext⟩ :=
        resolveInner_ext (kn.get ⟨i, hlen⟩) (kn.drop (i + 1)) kn ch
      rw [hext] at h
      have hA2 : jA < (kn ++ ext).length := by
        rw [List.length_append]; omega
      have hB2 : jB < (kn ++ ext).length := by
        rw [List.length_append]; omega
      have hres := ih (kn ++ ext) (i + 1)
        (resolveInner (kn.get ⟨i, hlen⟩) (kn.drop (i + 1)) kn ch).2 kn' ch' h jA jB hA2 hB2
        (by omega) hAB
        (by rw [get_append_left kn ext jA hA hA2, get_append_left kn ext jB hB hB2]; exact hne)
        (by rw [get_append_left kn ext jA hA hA2, get_append_left kn ext jB hB hB2]; exact hsub)
        (by rw [get_append_left kn ext jB hB hB2]; exact hnonempty)
        (by rw [get_append_left kn ext jA hA hA2, get_append_left kn ext jB hB hB2]; exact hcount)
      rw [get_append_left kn ext jA hA hA2, get_append_left kn ext jB hB hB2] at hres
      exact hres

theorem updPass_mono (r : ℕ) (st st' : MinesweeperAI) (ch : Bool)
    (h : updPass r st = some (st', ch)) :
    st.mines ⊆ st'.mines ∧ st.safes ⊆ st'.safes ∧ st'.moves_made = st.moves_made := by
  simp only [updPass] at h
  split at h
  · exact absurd h (by simp)
  · injection h with hpair
    injection hpair with h1 h2
    subst h1
    exact ⟨Finset.subset_union_left, Finset.subset_union_left, rfl⟩

theorem updPass_false_no_empty (r : ℕ) (st st' : MinesweeperAI)
    (h : updPass r st = some (st', false)) :
    ∀ s ∈ st'.knowledge, s.cells ≠ ∅ := by
  simp only [updPass] at h
  split at h
  · exact absurd h (by simp)
  · rename_i kn4 ch4 heq
    injection h with hpair
    injection hpair with h1 h2
    subst h1
    subst h2
    intro s hs
    obtain ⟨hkn, _⟩ := resolveOuter_false r _ 0 _ _ heq
    have hs2 : s ∈ kn4 := hs
    rw [hkn] at hs2
    simp only [List.mem_filter] at hs2
    exact of_decide_eq_true hs2.2

theorem update_knowledge_mono :
    ∀ (w r : ℕ) (st st' : MinesweeperAI), update_knowledge w r st = some st' →
      st.mines ⊆ st'.mines ∧ st.safes ⊆ st'.safes ∧ st'.moves_made = st.moves_made := by
  intro w
  induction w with
  | zero => intro r st st' h; cases h
  | succ w ih =>
    intro r st st' h
    rw [update_knowledge_succ] at h
    split at h
    · cases h
    · rename_i st1 ch heq
      cases ch with
      | false =>
        rw [if_neg (by simp)] at h
        have hst := Option.some.inj h
        subst hst
        exact updPass_mono r st st1 false heq
      | true =>
        rw [if_pos rfl] at h
        have h1 := updPass_mono r st st1 true heq
        have h2 := ih r st1 st' h
        exact ⟨h1.1.trans h2.1, h1.2.1.trans h2.2.1, h2.2.2.trans h1.2.2⟩

theorem update_knowledge_no_empty :
    ∀ (w r : ℕ) (st st' : MinesweeperAI), update_knowledge w r st = some st' →
      ∀ s ∈ st'.knowledge, s.cells ≠ ∅ := by
  intro w
  induction w with
  | zero => intro r st st' h; cases h
  | succ w ih =>
    intro r st st' h
    rw [update_knowledge_succ] at h
    split at h
    · cases h
    · rename_i st1 ch heq
      cases ch with
      | false =>
        rw [if_neg (by simp)] at h
        have hst := Option.some.inj h
        subst hst
        exact updPass_false_no_empty r st st1 heq
      | true =>
        rw [if_pos rfl] at h
        exact ih r st1 st' h

theorem ingest_mono (st : MinesweeperAI) (cell : Cell) (cnt : ℤ) :
    st.moves_made ⊆ (ingest st cell cnt).moves_made ∧
      st.mines = (ingest st cell cnt).mines ∧
      st.safes ⊆ (ingest st cell cnt).safes := by
  simp only [ingest, MinesweeperAI.mark_safe]
  split
  · exact ⟨Finset.subset_insert _ _, rfl, Finset.subset_insert _ _⟩
  · exact ⟨Finset.subset_insert _ _, rfl, Finset.subset_insert _ _⟩

theorem add_knowledge_mono (w r : ℕ) (st : MinesweeperAI) (cell : Cell) (cnt : ℤ)
    (st' : MinesweeperAI) (h : add_knowledge w r st cell cnt = some st') :
    st.moves_made ⊆ st'.moves_made ∧ st.mines ⊆ st'.mines ∧ st.safes ⊆ st'.safes := by
  obtain ⟨h1, h2, h3⟩ := update_knowledge_mono w r _ st' h
  obtain ⟨g1, g2, g3⟩ := ingest_mono st cell cnt
  refine ⟨?_, ?_, ?_⟩
  · rw [h3]
    exact g1
  · rw [g2]
    exact h1
  · exact g3.trans h2

/-! ### The diverging saturation run -/

theorem outer_step (f : ℕ) (kn : List Sentence) (i : ℕ) (ch : Bool) (h : i < kn.length) :
    resolveOuter (f + 1) kn i ch =
      resolveOuter f (resolveInner (kn.get ⟨i, h⟩) (kn.drop (i + 1)) kn ch).1 (i + 1)
        (resolveInner (kn.get ⟨i, h⟩) (kn.drop (i + 1)) kn ch).2 := by
  rw [resolveOuter_succ, dif_pos h]

theorem outer_stop (f : ℕ) (kn : List Sentence) (i : ℕ) (ch : Bool) (h : ¬ i < kn.length) :
    resolveOuter (f + 1) kn i ch = some (kn, ch) := by
  rw [resolveOuter_succ, dif_neg h]

theorem resolveOuter_knD (k : ℕ) : resolveOuter (k + 4) knD 0 false = some (knDe, true) := by
  have h0 : 0 < knD.length := by decide
  have h1 : 0 + 1 < knDe.length := by decide
  have h2 : 0 + 1 + 1 < knDe.length := by decide
  have h3 : ¬ (0 + 1 + 1 + 1 < knDe.length) := by decide
  have e0a : (resolveInner (knD.get ⟨0, h0⟩) (knD.drop (0 + 1)) knD false).1 = knDe := rfl
  have e0b : (resolveInner (knD.get ⟨0, h0⟩) (knD.drop (0 + 1)) knD false).2 = true := rfl
  have e1a : (resolveInner (knDe.get ⟨0 + 1, h1⟩) (knDe.drop (0 + 1 + 1)) knDe true).1 = knDe := rfl
  have e1b : (resolveInner (knDe.get ⟨0 + 1, h1⟩) (knDe.drop (0 + 1 + 1)) knDe true).2 = true := rfl
  have e2a :
      (resolveInner (knDe.get ⟨0 + 1 + 1, h2⟩) (knDe.drop (0 + 1 + 1 + 1)) knDe true).1 = knDe := rfl
  have e2b :
      (resolveInner (knDe.get ⟨0 + 1 + 1, h2⟩) (knDe.drop (0 + 1 + 1 + 1)) knDe true).2 = true := rfl
  rw [show k + 4 = ((k + 1) + 1 + 1) + 1 by omega]
  rw [outer_step ((k + 1) + 1 + 1) knD 0 false h0, e0a, e0b]
  rw [outer_step ((k + 1) + 1) knDe (0 + 1) true h1, e1a, e1b]
  rw [outer_step (k + 1) knDe (0 + 1 + 1) true h2, e2a, e2b]
  rw [outer_stop k knDe (0 + 1 + 1 + 1) true h3]

theorem updPass_st_div_four (k : ℕ) : updPass (k + 4) st_div = some (st1_div, true) := by
  have hkn :
      (List.filter (fun s => decide (s.cells ≠ ∅))
        (List.map (fun s => s.markSafeSet (collect_safes st_div.knowledge \ st_div.safes))
          (List.map (fun s => s.markMineSet (collect_mines st_div.knowledge \ st_div.mines))
            st_div.knowledge))) = knD := by decide
  have hch :
      (decide (collect_mines st_div.knowledge \ st_div.mines ≠ ∅) ||
        decide (collect_safes st_div.knowledge \ st_div.safes ≠ ∅)) = false := by decide
  simp only [updPass]
  rw [hkn, hch, resolveOuter_knD k]
  decide

theorem updPass_st1_div_four (k : ℕ) : updPass (k + 4) st1_div = some (st1_div, true) := by
  have hkn :
      (List.filter (fun s => decide (s.cells ≠ ∅))
        (List.map (fun s => s.markSafeSet (collect_safes st1_div.knowledge \ st1_div.safes))
          (List.map (fun s => s.markMineSet (collect_mines st1_div.knowledge \ st1_div.mines))
            st1_div.knowledge))) = knD := by decide
  have hch :
      (decide (collect_mines st1_div.knowledge \ st1_div.mines ≠ ∅) ||
        decide (collect_safes st1_div.knowledge \ st1_div.safes ≠ ∅)) = false := by decide
  simp only [updPass]
  rw [hkn, hch, resolveOuter_knD k]
  decide

theorem updPass_st_div (r : ℕ) :
    updPass r st_div = none ∨ updPass r st_div = some (st1_div, true) := by
  rcases Nat.lt_or_ge r 4 with hr | hr
  · left
    interval_cases r
    · decide
    · decide
    · decide
    · decide
  · right
    obtain ⟨k, rfl⟩ : ∃ k, r = k + 4 := ⟨r - 4, by omega⟩
    exact updPass_st_div_four k

theorem updPass_st1_div (r : ℕ) :
    updPass r st1_div = none ∨ updPass r st1_div = some (st1_div, true) := by
  rcases Nat.lt_or_ge r 4 with hr | hr
  · left
    interval_cases r
    · decide
    · decide
    · decide
    · decide
  · right
    obtain ⟨k, rfl⟩ : ∃ k, r = k + 4 := ⟨r - 4, by omega⟩
    exact updPass_st1_div_four k

theorem update_knowledge_st1_div : ∀ (w r : ℕ), update_knowledge w r st1_div = none := by
  intro w
  induction w with
  | zero => intro r; rfl
  | succ w ih =>
    intro r
    rw [update_knowledge_succ]
    rcases updPass_st1_div r with h | h
    · rw [h]
    · rw [h]
      exact ih r

theorem update_knowledge_st_div : ∀ (w r : ℕ), update_knowledge w r st_div = none := by
  intro w
  cases w with
  | zero => intro r; rfl
  | succ w =>
    intro r
    rw [update_knowledge_succ]
    rcases updPass_st_div r with h | h
    · rw [h]
    · rw [h]
      exact update_knowledge_st1_div w r

/-! ### Lemmas about the random-move candidate set -/

theorem mem_boardCells (st : MinesweeperAI) (p : Cell) :
    p ∈ boardCells st ↔ 0 ≤ p.1 ∧ p.1 < st.height ∧ 0 ≤ p.2 ∧ p.2 < st.width := by
  constructor
  · intro hp
    obtain ⟨i, hi, hpi⟩ := List.mem_flatMap.mp hp
    obtain ⟨j, hj, hftr⟩ := List.mem_map.mp hpi
    rw [List.mem_range] at hi hj
    subst hftr
    refine ⟨Int.natCast_nonneg i, ?_, Int.natCast_nonneg j, ?_⟩
    · simp only []
      omega
    · simp only []
      omega
  · rintro ⟨h1, h2, h3, h4⟩
    refine List.mem_flatMap.mpr ⟨p.1.toNat, List.mem_range.mpr (by omega), ?_⟩
    refine List.mem_map.mpr ⟨p.2.toNat, List.mem_range.mpr (by omega), ?_⟩
    rw [Int.toNat_of_nonneg h1, Int.toNat_of_nonneg h3]

theorem mem_candidates (st : MinesweeperAI) (p : Cell) :
    p ∈ candidates st ↔
      (0 ≤ p.1 ∧ p.1 < st.height ∧ 0 ≤ p.2 ∧ p.2 < st.width) ∧
        p ∉ st.mines ∧ p ∉ st.moves_made := by
  simp only [candidates, Finset.mem_filter, Finset.mem_product, Finset.mem_Icc]
  constructor
  · rintro ⟨⟨⟨a1, a2⟩, a3, a4⟩, b1, b2⟩
    exact ⟨⟨a1, by omega, a3, by omega⟩, b1, b2⟩
  · rintro ⟨⟨a1, a2, a3, a4⟩, b1, b2⟩
    exact ⟨⟨⟨a1, by omega⟩, a3, by omega⟩, b1, b2⟩

theorem movesList_nil_iff (st : MinesweeperAI) :
    movesList st = [] ↔ candidates st = ∅ := by
  rw [Finset.eq_empty_iff_forall_not_mem]
  simp only [movesList, List.filterMap_eq_nil_iff]
  constructor
  · intro h p hp
    rw [mem_candidates] at hp
    obtain ⟨hb, h1, h2⟩ := hp
    have hpb : p ∈ boardCells st := (mem_boardCells st p).mpr hb
    have := h p hpb
    rw [if_pos ⟨h1, h2⟩] at this
    cases this
  · intro h p hp
    by_cases hc : p ∉ st.mines ∧ p ∉ st.moves_made
    · exfalso
      exact h p ((mem_candidates st p).mpr ⟨(mem_boardCells st p).mp hp, hc⟩)
    · rw [if_neg hc]

theorem lookup_movesList (st : MinesweeperAI) (c : Cell) (hc : c ∈ candidates st) :
    (movesList st).lookup c = some (basic_prob st) := by
  rw [mem_candidates] at hc
  obtain ⟨hb, h1, h2⟩ := hc
  have hcb : c ∈ boardCells st := (mem_boardCells st c).mpr hb
  rw [movesList]
  generalize boardCells st = l at hcb
  induction l with
  | nil => cases hcb
  | cons a t ih =>
    rcases List.mem_cons.mp hcb with rfl | ht
    · rw [List.filterMap_cons, if_pos ⟨h1, h2⟩, List.lookup_cons]
      simp
    · by_cases ha : a ∉ st.mines ∧ a ∉ st.moves_made
      · rw [List.filterMap_cons, if_pos ha, List.lookup_cons]
        by_cases hac : (c == a) = true
        · rw [hac]
        · rw [Bool.not_eq_true] at hac
          rw [hac]
          exact ih ht
      · rw [List.filterMap_cons, if_neg ha]
        exact ih ht

/-! ### The claims -/

/-- C1 (counterexample): in the concrete resolution scenario with the subset
sentence `B = {(0,0),(0,1)} = 1` placed before the superset sentence
`A = {(0,0),(0,1),(0,2)} = 1`, saturation completes without deriving
anything: the state is returned unchanged and `(0,2)` is not in the safe set,
contradicting the claim that the derivation happens for both orders. -/
theorem C1_subset_resolution_counterexample :
    update_knowledge 6 30 stBA = some stBA ∧ ((0 : ℤ), (2 : ℤ)) ∉ stBA.safes := by
  constructor
  · decide
  · decide

/-- C1 (amended): pairwise subset resolution applies only to pairs in which
the superset sentence `A` occurs at an earlier list index than the subset
sentence `B`: for every completed resolution loop, every such pair with
`B.cells ⊆ A.cells`, `B.cells` non-empty, `A ≠ B` and `A.count − B.count ≥ 0`
has its difference sentence in the final list.  In the concrete scenario the
derivation therefore fires when `A` precedes `B`: saturation derives
`{(0,2)} = 0` and places `(0,2)` in the safe set. -/
theorem C1_subset_resolution_amended :
    (∀ (f : ℕ) (kn : List Sentence) (ch : Bool) (kn' : List Sentence) (ch' : Bool),
        resolveOuter f kn 0 ch = some (kn', ch') →
        ∀ (jA jB : ℕ) (hA : jA < kn.length) (hB : jB < kn.length), jA < jB →
          kn.get ⟨jA, hA⟩ ≠ kn.get ⟨jB, hB⟩ →
          (kn.get ⟨jB, hB⟩).cells ⊆ (kn.get ⟨jA, hA⟩).cells →
          (kn.get ⟨jB, hB⟩).cells ≠ ∅ →
          0 ≤ (kn.get ⟨jA, hA⟩).count - (kn.get ⟨jB, hB⟩).count →
          (⟨(kn.get ⟨jA, hA⟩).cells \ (kn.get ⟨jB, hB⟩).cells,
             (kn.get ⟨jA, hA⟩).count - (kn.get ⟨jB, hB⟩).count⟩ : Sentence) ∈ kn') ∧
      update_knowledge 6 30 stAB = some stABf ∧ ((0 : ℤ), (2 : ℤ)) ∈ stABf.safes := by
  refine ⟨?_, by decide, by decide⟩
  intro f kn ch kn' ch' h jA jB hA hB hAB hne hsub hnonempty hcount
  exact resolveOuter_derives f kn 0 ch kn' ch' h jA jB hA hB (Nat.zero_le jA) hAB hne hsub
    hnonempty hcount

/-- C1 (witness): the amended resolution rule applied to the concrete pair
`A = {(0,0),(0,1),(0,2)} = 1` at index 0 and `B = {(0,0),(0,1)} = 1` at
index 1 puts the derived sentence `{(0,2)} = 0` into the resulting list. -/
theorem C1_subset_resolution_witness :
    (⟨{((0 : ℤ), (2 : ℤ))}, 0⟩ : Sentence) ∈
      [(⟨{(0, 0), (0, 1), (0, 2)}, 1⟩ : Sentence), ⟨{(0, 0), (0, 1)}, 1⟩, ⟨{(0, 2)}, 0⟩] := by
  have h := C1_subset_resolution_amended.1 4
    [(⟨{(0, 0), (0, 1), (0, 2)}, 1⟩ : Sentence), ⟨{(0, 0), (0, 1)}, 1⟩] false
    [(⟨{(0, 0), (0, 1), (0, 2)}, 1⟩ : Sentence), ⟨{(0, 0), (0, 1)}, 1⟩, ⟨{(0, 2)}, 0⟩] true
    (by decide) 0 1 (by decide) (by decide) (by decide) (by decide) (by decide) (by decide)
    (by decide)
  exact h

/-- C2 (counterexample): with `(0,0)` already known mined on a 1×4 board,
`add_knowledge((0,1), 0)` makes the adjusted count `−1`; no error of any kind
is signalled and the sentence `{(0,2)} = −1` is stored in the knowledge
base. -/
theorem C2_negative_count_counterexample :
    add_knowledge 3 5 stC ((0 : ℤ), (1 : ℤ)) 0 = some stCf ∧
      (⟨{((0 : ℤ), (2 : ℤ))}, -1⟩ : Sentence) ∈ stCf.knowledge ∧
      (⟨{((0 : ℤ), (2 : ℤ))}, -1⟩ : Sentence).count < 0 := by
  refine ⟨by decide, by decide, by decide⟩

/-- C2 (amended): `add_knowledge` never signals anything: whenever the
candidate neighbour set is non-empty, the new sentence — with the adjusted
count, negative or not — is unconditionally appended to the knowledge
base. -/
theorem C2_negative_count_amended :
    ∀ (st : MinesweeperAI) (cell : Cell) (cnt : ℤ),
      (neighborScan (MinesweeperAI.mark_safe
          { st with moves_made := insert cell st.moves_made } cell) cell cnt).1 ≠ ∅ →
      (ingest st cell cnt).knowledge =
        (MinesweeperAI.mark_safe
            { st with moves_made := insert cell st.moves_made } cell).knowledge ++
          [⟨(neighborScan (MinesweeperAI.mark_safe
                { st with moves_made := insert cell st.moves_made } cell) cell cnt).1,
            (neighborScan (MinesweeperAI.mark_safe
                { st with moves_made := insert cell st.moves_made } cell) cell cnt).2.1 -
              (neighborScan (MinesweeperAI.mark_safe
                { st with moves_made := insert cell st.moves_made } cell) cell cnt).2.2⟩] := by
  intro st cell cnt h
  simp only [ingest]
  rw [if_pos h]

/-- C2 (witness): the amended statement applied to the concrete 1×4 board
with `(0,0)` mined: ingesting `((0,1), 0)` stores `{(0,2)} = −1`. -/
theorem C2_negative_count_witness :
    (ingest stC ((0 : ℤ), (1 : ℤ)) 0).knowledge = [⟨{((0 : ℤ), (2 : ℤ))}, -1⟩] := by
  rw [C2_negative_count_amended stC ((0 : ℤ), (1 : ℤ)) 0 (by decide)]
  decide

/-- C3 (counterexample): `MinesweeperAI.mark_mine` on a state whose knowledge
holds the sentence `{(0,0)} = 0` leaves the sentence `∅ = −1` in the
knowledge base — `0 ≤ count` is violated after the mutation and no error is
reported. -/
theorem C3_count_bounds_counterexample :
    (MinesweeperAI.mark_mine stX ((0 : ℤ), (0 : ℤ))).knowledge = [⟨∅, -1⟩] ∧
      ¬ (0 ≤ (⟨(∅ : Finset Cell), (-1 : ℤ)⟩ : Sentence).count) := by
  refine ⟨by decide, by decide⟩

/-- C3 (amended): the mutation operations validate nothing: `mark_mine`
unconditionally decrements the count when the cell is present (so counts can
leave `[0, |cells|]`), the marks are no-ops on absent cells, and the AI-level
`mark_mine` keeps every resulting sentence in the knowledge base without any
error reporting. -/
theorem C3_count_bounds_amended :
    (∀ (s : Sentence) (c : Cell), c ∈ s.cells →
        (s.mark_mine c).count = s.count - 1 ∧ (s.mark_mine c).cells = s.cells.erase c) ∧
      (∀ (s : Sentence) (c : Cell), c ∉ s.cells → s.mark_mine c = s ∧ s.mark_safe c = s) ∧
      (∀ (st : MinesweeperAI) (c : Cell),
        (MinesweeperAI.mark_mine st c).knowledge =
          st.knowledge.map (fun s => s.mark_mine c)) := by
  refine ⟨?_, ?_, ?_⟩
  · intro s c hc
    constructor
    · simp [Sentence.mark_mine, hc]
    · simp [Sentence.mark_mine, hc]
  · intro s c hc
    exact ⟨by simp [Sentence.mark_mine, hc], by simp [Sentence.mark_safe, hc]⟩
  · intro st c
    rfl

/-- C3 (witness): the amended statement applied at the sentence
`{(0,0)} = 0` and the cell `(0,0)`: the count drops to `0 − 1 = −1`. -/
theorem C3_count_bounds_witness :
    (Sentence.mark_mine ⟨{((0 : ℤ), (0 : ℤ))}, 0⟩ ((0 : ℤ), (0 : ℤ))).count = 0 - 1 ∧
      (Sentence.mark_mine ⟨{((0 : ℤ), (0 : ℤ))}, 0⟩ ((0 : ℤ), (0 : ℤ))).cells =
        ({((0 : ℤ), (0 : ℤ))} : Finset Cell).erase ((0 : ℤ), (0 : ℤ)) :=
  C3_count_bounds_amended.1 ⟨{((0 : ℤ), (0 : ℤ))}, 0⟩ ((0 : ℤ), (0 : ℤ)) (by decide)

/-- C4: the saturation loop does not always terminate.  On a 1×2 board,
observing `((0,0), 3)` and then the contradictory `((0,0), 2)` reaches the
state `st_div` with knowledge `[{(0,1)} = 3, {(0,1)} = 2]`; from there every
pass appends the empty-cells sentence `∅ = 1`, the next pass drops and
re-derives it, so the changed-flag is set forever: for every pair of fuel
bounds both the saturation loop alone and the second `add_knowledge` call
fail to reach a fixed point. -/
theorem C4_saturation_divergence :
    add_knowledge 5 9 ai12 ((0 : ℤ), (0 : ℤ)) 3 = some st_after1 ∧
      ingest st_after1 ((0 : ℤ), (0 : ℤ)) 2 = st_div ∧
      (∀ (w r : ℕ), add_knowledge w r st_after1 ((0 : ℤ), (0 : ℤ)) 2 = none) ∧
      (∀ (w r : ℕ), update_knowledge w r st_div = none) := by
  refine ⟨by decide, by decide, ?_, update_knowledge_st_div⟩
  intro w r
  have h : ingest st_after1 ((0 : ℤ), (0 : ℤ)) 2 = st_div := by decide
  show update_knowledge w r (ingest st_after1 ((0 : ℤ), (0 : ℤ)) 2) = none
  rw [h]
  exact update_knowledge_st_div w r

/-- C5 (counterexample): on a 1×3 board with `(0,0)` both mined and played,
the `moves` dict assigns candidate `(0,1)` the value
`(8 − 1) / (3 − 1 − 1) = 7`, whereas the spec's baseline
`(totalMines − |mined|) / |candidates|` evaluates (even granting
`totalMines = 8`) to `(8 − 1) / 2 = 7/2`. -/
theorem C5_baseline_probability_counterexample :
    (movesList stP).lookup ((0 : ℤ), (1 : ℤ)) = some 7 ∧
      specBaseline 8 stP = 7 / 2 ∧ (7 : ℚ) ≠ 7 / 2 := by
  refine ⟨?_, ?_, by norm_num⟩
  · rw [lookup_movesList stP ((0 : ℤ), (1 : ℤ)) (by decide)]
    have hm : stP.mines.card = 1 := by decide
    have hs : spacesLeft stP = 1 := by decide
    simp only [basic_prob, hm, hs]
    norm_num
  · have hm : stP.mines.card = 1 := by decide
    have hc : (candidates stP).card = 2 := by decide
    simp only [specBaseline, hm, hc]
    norm_num

/-- C5 (amended): every candidate cell is assigned the baseline value
`(8 − |mined|) / (H·W − |mined| − |moves_made|)`: the total-mine figure is
the hardcoded constant 8 (no caller-supplied count exists), and the
denominator subtracts the two set sizes separately instead of counting the
candidates. -/
theorem C5_baseline_probability_amended :
    ∀ (st : MinesweeperAI) (c : Cell), c ∈ candidates st →
      (movesList st).lookup c =
        some (((8 : ℚ) - (st.mines.card : ℚ)) / ((spacesLeft st : ℤ) : ℚ)) := by
  intro st c hc
  exact lookup_movesList st c hc

/-- C5 (witness): the amended statement applied on the 1×3 board `stP` at
candidate `(0,1)`. -/
theorem C5_baseline_probability_witness :
    (movesList stP).lookup ((0 : ℤ), (1 : ℤ)) =
      some (((8 : ℚ) - (stP.mines.card : ℚ)) / ((spacesLeft stP : ℤ) : ℚ)) :=
  C5_baseline_probability_amended stP ((0 : ℤ), (1 : ℤ)) (by decide)

/-- C6 (counterexample): on a 2×2 board the observation sequence
`((1,0), 1)`, `((0,0), 1)`, `((0,1), 0)` is ingested without complaint, and
in the final state the cell `(1,1)` is simultaneously in `mines` and in
`safes`: the two sets are not disjoint. -/
theorem C6_disjointness_counterexample :
    add_knowledge 5 20 ai22 ((1 : ℤ), (0 : ℤ)) 1 = some stm1 ∧
      add_knowledge 5 20 stm1 ((0 : ℤ), (0 : ℤ)) 1 = some stm2 ∧
      add_knowledge 5 20 stm2 ((0 : ℤ), (1 : ℤ)) 0 = some stF ∧
      ((1 : ℤ), (1 : ℤ)) ∈ stF.mines ∧ ((1 : ℤ), (1 : ℤ)) ∈ stF.safes := by
  refine ⟨by decide, by decide, by decide, by decide, by decide⟩

/-- C6 (amended): each single marking operation touches only its own set —
`mark_safe` adds the cell to `safes` and never changes `mines`, `mark_mine`
adds the cell to `mines` and never changes `safes` — so neither operation
checks the other set, and a cell deduced both mined and safe in one
saturation pass ends up in both sets. -/
theorem C6_disjointness_amended :
    ∀ (st : MinesweeperAI) (c : Cell),
      (MinesweeperAI.mark_safe st c).mines = st.mines ∧
        (MinesweeperAI.mark_mine st c).safes = st.safes ∧
        (MinesweeperAI.mark_safe st c).safes = insert c st.safes ∧
        (MinesweeperAI.mark_mine st c).mines = insert c st.mines := by
  intro st c
  exact ⟨rfl, rfl, rfl, rfl⟩

/-- C7: `safes`, `mines` and `moves_made` grow monotonically: the marking
operations, the saturation loop and `add_knowledge` only ever extend the
three sets. -/
theorem C7_monotonicity :
    (∀ (st : MinesweeperAI) (c : Cell),
        st.moves_made ⊆ (MinesweeperAI.mark_mine st c).moves_made ∧
          st.mines ⊆ (MinesweeperAI.mark_mine st c).mines ∧
          st.safes ⊆ (MinesweeperAI.mark_mine st c).safes) ∧
      (∀ (st : MinesweeperAI) (c : Cell),
        st.moves_made ⊆ (MinesweeperAI.mark_safe st c).moves_made ∧
          st.mines ⊆ (MinesweeperAI.mark_safe st c).mines ∧
          st.safes ⊆ (MinesweeperAI.mark_safe st c).safes) ∧
      (∀ (w r : ℕ) (st st' : MinesweeperAI), update_knowledge w r st = some st' →
        st.moves_made ⊆ st'.moves_made ∧ st.mines ⊆ st'.mines ∧ st.safes ⊆ st'.safes) ∧
      (∀ (w r : ℕ) (st : MinesweeperAI) (cell : Cell) (cnt : ℤ) (st' : MinesweeperAI),
        add_knowledge w r st cell cnt = some st' →
        st.moves_made ⊆ st'.moves_made ∧ st.mines ⊆ st'.mines ∧ st.safes ⊆ st'.safes) := by
  refine ⟨?_, ?_, ?_, ?_⟩
  · intro st c
    exact ⟨subset_rfl, Finset.subset_insert c st.mines, subset_rfl⟩
  · intro st c
    exact ⟨subset_rfl, subset_rfl, Finset.subset_insert c st.safes⟩
  · intro w r st st' h
    obtain ⟨h1, h2, h3⟩ := update_knowledge_mono w r st st' h
    exact ⟨by rw [h3], h1, h2⟩
  · intro w r st cell cnt st' h
    exact add_knowledge_mono w r st cell cnt st' h

/-- C7 (witness): the monotonicity statement applied to the concrete call
`add_knowledge((1,0), 1)` on a fresh 2×2 AI. -/
theorem C7_monotonicity_witness :
    ai22.moves_made ⊆ stm1.moves_made ∧ ai22.mines ⊆ stm1.mines ∧ ai22.safes ⊆ stm1.safes :=
  C7_monotonicity.2.2.2 5 20 ai22 ((1 : ℤ), (0 : ℤ)) 1 stm1 (by decide)

/-- C8 (counterexample): on a 1×2 board with `(0,0)` both mined and played,
`spaces_left = 2 − 1 − 1 = 0`, so `make_random_move` returns the no-move
sentinel although the candidate cell `(0,1)` remains — the sentinel is not
equivalent to the candidate set being empty. -/
theorem C8_no_move_sentinel_counterexample :
    make_random_move st8 = none ∧ candidates st8 ≠ ∅ := by
  refine ⟨by decide, by decide⟩

/-- C8 (amended): `make_random_move` returns the no-move sentinel if and only
if the arithmetic `spaces_left` count `H·W − |mines| − |moves_made|` is zero
or the candidate set is empty. -/
theorem C8_no_move_sentinel_amended :
    ∀ st : MinesweeperAI,
      make_random_move st = none ↔ spacesLeft st = 0 ∨ candidates st = ∅ := by
  intro st
  by_cases h1 : spacesLeft st = 0
  · simp [make_random_move, h1]
  · by_cases h2 : movesList st = []
    · have hc := (movesList_nil_iff st).mp h2
      simp [make_random_move, h1, h2, hc]
    · have hc : ¬ candidates st = ∅ := fun hh => h2 ((movesList_nil_iff st).mpr hh)
      by_cases h3 : st.knowledge = []
      · simp [make_random_move, h1, h2, h3, hc]
      · simp [make_random_move, h1, h2, h3, hc]

/-- C9: whenever the saturation loop (and hence `add_knowledge`) returns, no
sentence with an empty cell set remains in the knowledge base. -/
theorem C9_no_empty_sentences :
    (∀ (w r : ℕ) (st st' : MinesweeperAI), update_knowledge w r st = some st' →
        ∀ s ∈ st'.knowledge, s.cells ≠ ∅) ∧
      (∀ (w r : ℕ) (st : MinesweeperAI) (cell : Cell) (cnt : ℤ) (st' : MinesweeperAI),
        add_knowledge w r st cell cnt = some st' → ∀ s ∈ st'.knowledge, s.cells ≠ ∅) := by
  constructor
  · exact update_knowledge_no_empty
  · intro w r st cell cnt st' h
    exact update_knowledge_no_empty w r _ st' h

/-- C9 (witness): the statement applied to the completed saturation run on
`stAB`, at the surviving sentence `{(0,0),(0,1)} = 1`. -/
theorem C9_no_empty_sentences_witness :
    (⟨{((0 : ℤ), (0 : ℤ)), ((0 : ℤ), (1 : ℤ))}, 1⟩ : Sentence).cells ≠ ∅ :=
  C9_no_empty_sentences.1 6 30 stAB stABf (by decide)
    ⟨{((0 : ℤ), (0 : ℤ)), ((0 : ℤ), (1 : ℤ))}, 1⟩ (by decide)

/-- C10: a sentence whose count is negative yields no certainty deductions:
both `known_mines` and `known_safes` return the empty set. -/
theorem C10_negative_count_no_deductions :
    ∀ s : Sentence, s.count < 0 → s.known_mines = ∅ ∧ s.known_safes = ∅ := by
  intro s hs
  have h1 : ¬ ((s.cells.card : ℤ) = s.count ∧ s.count ≠ 0) := by
    rintro ⟨ha, _⟩
    have h0 : (0 : ℤ) ≤ (s.cells.card : ℤ) := Int.natCast_nonneg _
    omega
  have h2 : ¬ (s.count = 0) := by omega
  exact ⟨by simp only [Sentence.known_mines, if_neg h1],
    by simp only [Sentence.known_safes, if_neg h2]⟩

/-- C10 (witness): the statement applied to the sentence `{(0,0)} = −1`. -/
theorem C10_negative_count_no_deductions_witness :
    Sentence.known_mines ⟨{((0 : ℤ), (0 : ℤ))}, -1⟩ = ∅ ∧
      Sentence.known_safes ⟨{((0 : ℤ), (0 : ℤ))}, -1⟩ = ∅ :=
  C10_negative_count_no_deductions ⟨{((0 : ℤ), (0 : ℤ))}, -1⟩ (by decide)
